import Mathlib

/-!
Verification of the cognitive_workflow repository's core components:
the Speaker Attribution Engine (src/modules/transcriber.py) and the
Job Orchestrator (src/api/job_queue.py).

Times and durations are modelled as rationals (the Python code uses
floats but performs only comparisons, additions and subtractions on
them here).  Python strings are modelled as Lean `String` / `List Char`.
-/

namespace CW

/-! ## Data model for the Speaker Attribution Engine -/

/-- A diarization interval: one `(turn, track, speaker)` entry of the
pyannote annotation, as consumed by `_get_dominant_speaker` and by the
filtering step in `DiarizationService.diarize`. -/
structure Turn where
  tStart : ℚ
  tEnd : ℚ
  speaker : String
deriving DecidableEq, Repr

/-- A whisper transcript segment (`segment['start']`, `segment['end']`,
`segment['text']`). -/
structure Seg where
  tStart : ℚ
  tEnd : ℚ
  text : String
deriving DecidableEq, Repr

/-! ### Python string primitives used by the code -/

/-- Characters stripped by Python `str.strip()` (ASCII whitespace;
the Unicode whitespace cases do not occur in the repository's data). -/
def isPyWS (c : Char) : Bool :=
  c = ' ' || c = '\t' || c = '\n' || c = '\x0d' || c = '\x0b' || c = '\x0c'

/-- Python `str.strip()` on a character list. -/
def pyStrip (cs : List Char) : List Char :=
  ((cs.dropWhile isPyWS).reverse.dropWhile isPyWS).reverse

/-- Python `str.lower()` (ASCII; `Char.toLower` agrees with Python on
the ASCII range, which is all the filler-word comparison needs). -/
def pyLower (cs : List Char) : List Char := cs.map Char.toLower

/-- Does `hay` start with `pat`? (helper for substring containment). -/
def leadMatch : List Char → List Char → Bool
  | [], _ => true
  | _ :: _, [] => false
  | p :: ps, h :: hs => p = h && leadMatch ps hs

/-- Python `pat in hay` substring containment on character lists. -/
def hasSub (pat : List Char) : List Char → Bool
  | [] => leadMatch pat []
  | h :: t => leadMatch pat (h :: t) || hasSub pat (h :: t).tail

/-! ### `_should_use_rule_based_assignment` (transcriber.py:626-653) -/

/-- The fixed `address_words` list of the source. -/
def addressWords : List (List Char) :=
  ["hey".data, "hi".data, "yeah".data, "okay".data, "alright".data,
   "sure".data, "thanks".data]

/-- `text = segment['text'].lower().strip()` of the source. -/
def lowerStripped (s : Seg) : List Char := pyStrip (pyLower s.text.data)

/-- `'?' in text` for a segment. -/
def qmark (s : Seg) : Bool := hasSub ['?'] (lowerStripped s)

/-- `any(word in text for word in address_words)` for a segment. -/
def fillerHit (s : Seg) : Bool :=
  addressWords.any (fun w => hasSub w (lowerStripped s))

/-- `AudioTranscriber._should_use_rule_based_assignment`: fewer than 3
segments never triggers the heuristic; otherwise it triggers iff the
filler-word fraction exceeds 0.2 or the question fraction exceeds 0.15. -/
def shouldUseRuleBased (segs : List Seg) : Bool :=
  if segs.length < 3 then false
  else
    let conversationIndicators := segs.countP fillerHit
    let questionCount := segs.countP qmark
    decide ((conversationIndicators : ℚ) / segs.length > 0.2)
      || decide ((questionCount : ℚ) / segs.length > 0.15)

/-! ### `_analyze_conversation_flow` (transcriber.py:519-559) -/

/-- C5: `_should_use_rule_based_assignment` returns false for every
transcript with fewer than 3 segments; with at least 3 segments it
returns true iff the fraction of segments containing (as a substring of
the lowercased, stripped text) at least one filler word from the fixed
set {hey, hi, yeah, okay, alright, sure, thanks} exceeds 0.20, or the
fraction of segments containing a question mark exceeds 0.15. -/
theorem shouldUseRuleBased_spec (segs : List Seg) :
    (segs.length < 3 → shouldUseRuleBased segs = false) ∧
    (3 ≤ segs.length →
      (shouldUseRuleBased segs = true ↔
        ((segs.countP fillerHit : ℚ) / segs.length > 0.2 ∨
         (segs.countP qmark : ℚ) / segs.length > 0.15))) := by
  constructor
  · intro h
    simp only [shouldUseRuleBased, if_pos h]
  · intro h
    have h3 : ¬ segs.length < 3 := by omega
    simp only [shouldUseRuleBased, if_neg h3, Bool.or_eq_true, decide_eq_true_eq]

/-- Witness for C5: a transcript with no segments is below the
three-segment threshold, so the heuristic predicate declines. -/
theorem shouldUseRuleBased_spec_witness : shouldUseRuleBased [] = false :=
  (shouldUseRuleBased_spec []).1 (by decide)

/-- `text.strip().endswith('?')` of the source. -/
def endsQ (s : String) : Bool := (pyStrip s.data).getLast? = some '?'

/-- `current_speaker = 2 if current_speaker == 1 else 1`. -/
def flipIdx (n : ℕ) : ℕ := if n = 1 then 2 else 1

/-- The `should_change` condition of `_analyze_conversation_flow`:
a pause longer than 1.5 s, or a question followed by a non-question. -/
def changeCond (p c : Seg) : Bool :=
  decide (c.tStart - p.tEnd > (1.5 : ℚ)) || (endsQ p.text && !endsQ c.text)

/-- The loop of `_analyze_conversation_flow`: scan the remaining
segments, flipping the active speaker index when `changeCond` holds
against the previous segment. -/
def flowAux (prev : Seg) (cur : ℕ) : List Seg → List ℕ
  | [] => []
  | c :: rest =>
    let cur' := if changeCond prev c then flipIdx cur else cur
    cur' :: flowAux c cur' rest

/-- `AudioTranscriber._analyze_conversation_flow`: speaker indices for
each segment, starting at speaker 1. -/
def analyzeConversationFlow : List Seg → List ℕ
  | [] => []
  | s :: rest => 1 :: flowAux s 1 rest

/-- Adjacency relation on (segment, assigned index) pairs: the next
index is the flip of the previous one exactly when `changeCond` holds. -/
def stepRel (x y : Seg × ℕ) : Prop :=
  y.2 = if changeCond x.1 y.1 then flipIdx x.2 else x.2

theorem flowAux_length (rest : List Seg) : ∀ (prev : Seg) (cur : ℕ),
    (flowAux prev cur rest).length = rest.length := by
  induction rest with
  | nil => intro prev cur; rfl
  | cons c t ih =>
    intro prev cur
    simp only [flowAux, List.length_cons, ih]

theorem flowAux_chain (rest : List Seg) : ∀ (prev : Seg) (cur : ℕ),
    List.Chain' stepRel ((prev, cur) :: rest.zip (flowAux prev cur rest)) := by
  induction rest with
  | nil => intro prev cur; simp
  | cons c t ih =>
    intro prev cur
    simp only [flowAux, List.zip_cons_cons, List.chain'_cons]
    exact ⟨rfl, ih c _⟩

theorem flowAux_mem (rest : List Seg) : ∀ (prev : Seg) (cur : ℕ),
    (cur = 1 ∨ cur = 2) → ∀ v ∈ flowAux prev cur rest, v = 1 ∨ v = 2 := by
  induction rest with
  | nil => intro _ _ _ v hv; simp [flowAux] at hv
  | cons c t ih =>
    intro prev cur hcur v hv
    have hcur' : (if changeCond prev c then flipIdx cur else cur) = 1 ∨
        (if changeCond prev c then flipIdx cur else cur) = 2 := by
      rcases hcur with h | h <;> subst h <;>
        by_cases hc : changeCond prev c <;> simp [hc, flipIdx]
    simp only [flowAux, List.mem_cons] at hv
    rcases hv with rfl | hv
    · exact hcur'
    · exact ih c _ hcur' v hv

/-- C2: for every non-empty list of transcript segments,
`_analyze_conversation_flow` assigns speaker index 1 to the first
segment and, scanning subsequent segments in order, flips the active
index between 1 and 2 exactly when the current segment's start minus
the previous segment's end exceeds 1.5 seconds, or the previous
segment's trimmed text ends with '?' while the current one's does not;
on `[(0,2,"Hi there"), (2,4,"Hello, how are you?"), (6,8,"Good, thanks")]`
it returns `[1,1,2]`. -/
theorem analyzeConversationFlow_spec (segs : List Seg) (h : segs ≠ []) :
    (analyzeConversationFlow segs).length = segs.length ∧
    (analyzeConversationFlow segs).head? = some 1 ∧
    (∀ v ∈ analyzeConversationFlow segs, v = 1 ∨ v = 2) ∧
    List.Chain' stepRel (segs.zip (analyzeConversationFlow segs)) ∧
    analyzeConversationFlow
      [⟨0, 2, "Hi there"⟩, ⟨2, 4, "Hello, how are you?"⟩, ⟨6, 8, "Good, thanks"⟩]
      = [1, 1, 2] := by
  obtain ⟨s, rest, rfl⟩ : ∃ s rest, segs = s :: rest := by
    cases segs with
    | nil => exact absurd rfl h
    | cons s rest => exact ⟨s, rest, rfl⟩
  refine ⟨?_, rfl, ?_, ?_, ?_⟩
  · simp [analyzeConversationFlow, flowAux_length]
  · intro v hv
    simp only [analyzeConversationFlow, List.mem_cons] at hv
    rcases hv with rfl | hv
    · exact Or.inl rfl
    · exact flowAux_mem rest s 1 (Or.inl rfl) v hv
  · simpa [analyzeConversationFlow] using flowAux_chain rest s 1
  · have h1 : changeCond ⟨0, 2, "Hi there"⟩ ⟨2, 4, "Hello, how are you?"⟩ = false := by
      simp only [changeCond]
      norm_num
      decide
    have h2 : changeCond ⟨2, 4, "Hello, how are you?"⟩ ⟨6, 8, "Good, thanks"⟩ = true := by
      simp only [changeCond]
      norm_num
    simp [analyzeConversationFlow, flowAux, h1, h2, flipIdx]

/-! ### Speaker-validity filtering (`DiarizationService.diarize`,
transcriber.py:146-176) -/

/-- Accumulated `speaker_durations[speaker] += segment.duration` for one
label: the summed duration of that label's intervals. -/
def durTotal (xs : List Turn) (l : String) : ℚ :=
  ((xs.filter fun i => i.speaker = l).map fun i => i.tEnd - i.tStart).sum

/-- The set `speakers` of labels occurring in the annotation (modelled
as a deduplicated list; the source uses a Python set). -/
def labelsOf (xs : List Turn) : List String := (xs.map Turn.speaker).dedup

/-- `valid_speakers = {speaker for ... if duration >= min_speaker_duration}`. -/
def validLabels (xs : List Turn) (minDur : ℚ) : List String :=
  (labelsOf xs).filter fun l => decide (minDur ≤ durTotal xs l)

/-- The annotation returned by `diarize` after the validity filter:
the filtered annotation is built only when
`len(valid_speakers) > 0 and len(valid_speakers) != len(speakers)`;
otherwise the unfiltered annotation is kept. -/
def keptIntervals (xs : List Turn) (minDur : ℚ) : List Turn :=
  if (validLabels xs minDur).length ≠ 0 ∧
      (validLabels xs minDur).length ≠ (labelsOf xs).length then
    xs.filter fun i => decide (i.speaker ∈ validLabels xs minDur)
  else xs

theorem durTotal_cons (i : Turn) (xs : List Turn) (l : String) :
    durTotal (i :: xs) l =
      (if i.speaker = l then i.tEnd - i.tStart else 0) + durTotal xs l := by
  by_cases h : i.speaker = l <;> simp [durTotal, List.filter_cons, h]

theorem durTotal_filterMem (xs : List Turn) (V : List String) (l : String) :
    durTotal (xs.filter fun i => decide (i.speaker ∈ V)) l =
      if l ∈ V then durTotal xs l else 0 := by
  induction xs with
  | nil => simp [durTotal]
  | cons i xs ih =>
    by_cases hV : i.speaker ∈ V <;> by_cases hl : i.speaker = l
    · subst hl; simp [List.filter_cons, hV, durTotal_cons, ih]
    · simp [List.filter_cons, hV, durTotal_cons, ih, hl]
    · subst hl; simp [List.filter_cons, hV, durTotal_cons, ih]
    · simp [List.filter_cons, hV, durTotal_cons, ih, hl]

theorem mem_labelsOf (xs : List Turn) (l : String) :
    l ∈ labelsOf xs ↔ ∃ i ∈ xs, i.speaker = l := by
  simp [labelsOf, List.mem_dedup, List.mem_map]

theorem mem_labelsOf_filterMem (xs : List Turn) (V : List String) (l : String) :
    l ∈ labelsOf (xs.filter fun i => decide (i.speaker ∈ V)) ↔
      l ∈ labelsOf xs ∧ l ∈ V := by
  simp only [mem_labelsOf, List.mem_filter, decide_eq_true_eq]
  constructor
  · rintro ⟨i, ⟨hi, hV⟩, rfl⟩
    exact ⟨⟨i, hi, rfl⟩, hV⟩
  · rintro ⟨⟨i, hi, rfl⟩, hV⟩
    exact ⟨i, ⟨hi, hV⟩, rfl⟩

theorem mem_validLabels (xs : List Turn) (d : ℚ) (l : String) :
    l ∈ validLabels xs d ↔ l ∈ labelsOf xs ∧ d ≤ durTotal xs l := by
  simp [validLabels, List.mem_filter]

/-- C3: a speaker label is valid iff the summed duration of its
intervals reaches `minDuration` (2.0 s); and when no label is valid the
filter is not applied, keeping the unfiltered annotation. -/
theorem filterSpeakers_spec (xs : List Turn) (l : String) :
    (l ∈ validLabels xs 2 ↔ l ∈ labelsOf xs ∧ (2 : ℚ) ≤ durTotal xs l) ∧
    (validLabels xs 2 = [] → keptIntervals xs 2 = xs) := by
  refine ⟨mem_validLabels xs 2 l, fun h => ?_⟩
  simp [keptIntervals, h]

/-- Witness for C3: with no intervals there is no valid label and the
filter is skipped. -/
theorem filterSpeakers_spec_witness : keptIntervals [] 2 = [] :=
  (filterSpeakers_spec [] "SPEAKER_00").2 rfl

/-- C9: filtering is idempotent on the valid-label set — the valid
labels of the kept intervals are exactly the valid labels of the
original intervals. -/
theorem filterSpeakers_idem (xs : List Turn) (d : ℚ) (l : String) :
    l ∈ validLabels (keptIntervals xs d) d ↔ l ∈ validLabels xs d := by
  by_cases hc : (validLabels xs d).length ≠ 0 ∧
      (validLabels xs d).length ≠ (labelsOf xs).length
  · rw [keptIntervals, if_pos hc]
    by_cases hV : l ∈ validLabels xs d
    · have hmem := (mem_validLabels xs d l).mp hV
      rw [mem_validLabels, mem_labelsOf_filterMem, durTotal_filterMem, if_pos hV]
      exact iff_of_true ⟨⟨hmem.1, hV⟩, hmem.2⟩ hV
    · rw [mem_validLabels, mem_labelsOf_filterMem]
      exact iff_of_false (fun h => hV h.1.2) hV
  · rw [keptIntervals, if_neg hc]

/-- Witness for C9 at a concrete annotation. -/
theorem filterSpeakers_idem_witness :
    ("SPEAKER_00" ∈ validLabels (keptIntervals [] 2) 2 ↔
      "SPEAKER_00" ∈ validLabels [] 2) :=
  filterSpeakers_idem [] 2 "SPEAKER_00"

/-! ### `_get_dominant_speaker` (transcriber.py:563-599) -/

/-- The claim's per-interval overlap `max(0, min(segmentEnd, interval.end)
- max(segmentStart, interval.start))` with the window `[s, e]`. -/
def overlapLen (s e : ℚ) (i : Turn) : ℚ :=
  max 0 (min e i.tEnd - max s i.tStart)

/-- Accumulated overlap of one label over all of its intervals. -/
def speakerOverlap (s e : ℚ) (xs : List Turn) (l : String) : ℚ :=
  ((xs.filter fun i => i.speaker = l).map fun i => overlapLen s e i).sum

/-- `speaker_durations[label] += v`, with insertion at the end when the
label is new (Python dicts preserve insertion order). -/
def addDur : List (String × ℚ) → String → ℚ → List (String × ℚ)
  | [], l, v => [(l, v)]
  | (k, x) :: rest, l, v =>
    if k = l then (k, x + v) :: rest else (k, x) :: addDur rest l v

/-- The `speaker_durations` dict built by `_get_dominant_speaker`: a
label accumulates `overlap_end - overlap_start` for each of its
intervals whose overlap with the window is strictly positive. -/
def speakerDurations (s e : ℚ) (xs : List Turn) : List (String × ℚ) :=
  xs.foldl
    (fun d i =>
      let os := max s i.tStart
      let oe := min e i.tEnd
      if os < oe then addDur d i.speaker (oe - os) else d)
    []

/-- Python `max(speaker_durations, key=speaker_durations.get)`: the
first key attaining the maximal value, in insertion order. -/
def maxKey (k : String) (v : ℚ) : List (String × ℚ) → String
  | [] => k
  | (k2, v2) :: rest => if v2 > v then maxKey k2 v2 rest else maxKey k v rest

/-- Value of the digit string consumed by Python `int`. -/
def digitsVal (cs : List Char) : ℕ :=
  cs.foldl (fun a c => a * 10 + (c.toNat - 48)) 0

/-- Python `int(s)` on the label pieces produced by `split('_')`,
modelled for plain digit strings (signs, surrounding whitespace and
digit-group underscores cannot occur in a piece split on `'_'` of the
labels considered here); a non-digit piece raises `ValueError`,
modelled as `none`. -/
def pyInt? (cs : List Char) : Option ℕ :=
  if cs ≠ [] ∧ cs.all Char.isDigit then some (digitsVal cs) else none

/-- Python `split('_')` on a character list. -/
def splitU : List Char → List (List Char)
  | [] => [[]]
  | c :: rest =>
    match splitU rest with
    | [] => [[]]
    | g :: gs => if c = '_' then [] :: g :: gs else (c :: g) :: gs

/-- `dominant_speaker.startswith('SPEAKER_')`. -/
def hasSpeakerTag : List Char → Bool
  | 'S' :: 'P' :: 'E' :: 'A' :: 'K' :: 'E' :: 'R' :: '_' :: _ => true
  | _ => false

/-- The display rendering of the winning label: a label starting with
`SPEAKER_` is parsed via `int(label.split('_')[1]) + 1` (so `none`
models the `ValueError` on a non-numeric piece); any other label is
rendered verbatim after `Speaker `. -/
def renderLabel (l : String) : Option String :=
  if hasSpeakerTag l.data then
    match pyInt? ((splitU l.data).getD 1 []) with
    | some n => some ("Speaker " ++ Nat.repr (n + 1))
    | none => none
  else some ("Speaker " ++ l)

/-- `AudioTranscriber._get_dominant_speaker`; `none` models the
`ValueError` raised when the winning label starts with `SPEAKER_` but
its second `'_'`-piece is not numeric. -/
def dominantSpeaker (diar : List Turn) (s e : ℚ) : Option String :=
  match speakerDurations s e diar with
  | [] => some "Unknown Speaker"
  | (k, v) :: rest => renderLabel (maxKey k v rest)

/-- Dict lookup with default 0 (`speaker_durations.get`). -/
def lookupD : List (String × ℚ) → String → ℚ
  | [], _ => 0
  | (k, v) :: rest, l => if k = l then v else lookupD rest l

/-- The keys of the duration dict. -/
def keysOf (d : List (String × ℚ)) : List String := d.map Prod.fst

theorem lookupD_addDur (d : List (String × ℚ)) (k : String) (v : ℚ) (l : String) :
    lookupD (addDur d k v) l = lookupD d l + (if k = l then v else 0) := by
  induction d with
  | nil => by_cases h : k = l <;> simp [addDur, lookupD, h]
  | cons p rest ih =>
    obtain ⟨k2, x⟩ := p
    by_cases h2 : k2 = k
    · subst h2
      by_cases hl : k2 = l <;> simp [addDur, lookupD, hl]
    · by_cases hl : k2 = l
      · subst hl
        have : ¬ k = k2 := fun h => h2 h.symm
        simp [addDur, lookupD, h2, this]
      · simp [addDur, lookupD, h2, hl, ih]

theorem speakerOverlap_cons (s e : ℚ) (i : Turn) (xs : List Turn) (l : String) :
    speakerOverlap s e (i :: xs) l =
      (if i.speaker = l then overlapLen s e i else 0) + speakerOverlap s e xs l := by
  by_cases h : i.speaker = l <;> simp [speakerOverlap, List.filter_cons, h]

theorem overlapLen_pos_eq (s e : ℚ) (i : Turn) (h : max s i.tStart < min e i.tEnd) :
    overlapLen s e i = min e i.tEnd - max s i.tStart := by
  rw [overlapLen, max_eq_right (le_of_lt (sub_pos.mpr h))]

theorem overlapLen_nonpos_eq (s e : ℚ) (i : Turn) (h : ¬ max s i.tStart < min e i.tEnd) :
    overlapLen s e i = 0 := by
  rw [overlapLen, max_eq_left (sub_nonpos.mpr (not_lt.mp h))]

theorem lookupD_foldl (s e : ℚ) (xs : List Turn) :
    ∀ (d : List (String × ℚ)) (l : String),
    lookupD (xs.foldl
      (fun d i =>
        let os := max s i.tStart
        let oe := min e i.tEnd
        if os < oe then addDur d i.speaker (oe - os) else d) d) l =
      lookupD d l + speakerOverlap s e xs l := by
  induction xs with
  | nil => intro d l; simp [speakerOverlap]
  | cons i xs ih =>
    intro d l
    rw [List.foldl_cons, ih, speakerOverlap_cons]
    by_cases hpos : max s i.tStart < min e i.tEnd
    · simp only [hpos, if_pos, lookupD_addDur, overlapLen_pos_eq s e i hpos]
      by_cases hl : i.speaker = l
      · simp [hl]
        ring
      · simp [hl]
    · simp only [hpos, if_neg, overlapLen_nonpos_eq s e i hpos]
      simp [hpos]

theorem lookupD_speakerDurations (s e : ℚ) (xs : List Turn) (l : String) :
    lookupD (speakerDurations s e xs) l = speakerOverlap s e xs l := by
  rw [speakerDurations, lookupD_foldl]
  simp [lookupD]

theorem keysOf_addDur (d : List (String × ℚ)) (k : String) (v : ℚ) :
    keysOf (addDur d k v) =
      if k ∈ keysOf d then keysOf d else keysOf d ++ [k] := by
  induction d with
  | nil => simp [addDur, keysOf]
  | cons p rest ih =>
    obtain ⟨k2, x⟩ := p
    by_cases h2 : k2 = k
    · subst h2; simp [addDur, keysOf]
    · have hne : ¬ k = k2 := fun h => h2 h.symm
      have ih' : (addDur rest k v).map Prod.fst =
          if k ∈ rest.map Prod.fst then rest.map Prod.fst
          else rest.map Prod.fst ++ [k] := by
        simpa [keysOf] using ih
      by_cases hmem : k ∈ rest.map Prod.fst <;>
        simp [addDur, if_neg h2, keysOf, ih', hmem, hne]

theorem nodup_keys_addDur (d : List (String × ℚ)) (k : String) (v : ℚ)
    (h : (keysOf d).Nodup) : (keysOf (addDur d k v)).Nodup := by
  rw [keysOf_addDur]
  by_cases hmem : k ∈ keysOf d
  · simpa [hmem] using h
  · simpa [hmem] using List.Nodup.append h (List.nodup_singleton k)
      (by simpa using hmem)

theorem nodup_keys_speakerDurations (s e : ℚ) (xs : List Turn) :
    (keysOf (speakerDurations s e xs)).Nodup := by
  rw [speakerDurations]
  have : ∀ d : List (String × ℚ), (keysOf d).Nodup →
      (keysOf (xs.foldl
        (fun d i =>
          let os := max s i.tStart
          let oe := min e i.tEnd
          if os < oe then addDur d i.speaker (oe - os) else d) d)).Nodup := by
    induction xs with
    | nil => intro d hd; simpa using hd
    | cons i xs ih =>
      intro d hd
      rw [List.foldl_cons]
      refine ih _ ?_
      by_cases hpos : max s i.tStart < min e i.tEnd
      · simpa [hpos] using nodup_keys_addDur d i.speaker _ hd
      · simpa [hpos] using hd
  exact this [] (by simp [keysOf])

theorem maxKey_spec (rest : List (String × ℚ)) : ∀ (k : String) (v : ℚ),
    ∃ w, (maxKey k v rest, w) ∈ (k, v) :: rest ∧
      ∀ p ∈ (k, v) :: rest, p.2 ≤ w := by
  induction rest with
  | nil =>
    intro k v
    exact ⟨v, List.mem_singleton.mpr rfl, by simp [maxKey]⟩
  | cons p2 rest ih =>
    intro k v
    obtain ⟨k2, v2⟩ := p2
    by_cases hgt : v2 > v
    · obtain ⟨w, hmem, hmax⟩ := ih k2 v2
      refine ⟨w, ?_, ?_⟩
      · rw [maxKey, if_pos hgt]
        exact List.mem_cons_of_mem _ hmem
      · intro p hp
        rcases List.mem_cons.mp hp with rfl | hp
        · exact le_trans (le_of_lt hgt) (hmax _ (List.mem_cons_self _ _))
        · exact hmax _ hp
    · obtain ⟨w, hmem, hmax⟩ := ih k v
      refine ⟨w, ?_, ?_⟩
      · rw [maxKey, if_neg hgt]
        rcases List.mem_cons.mp hmem with h | h
        · rw [h]
          exact List.mem_cons_self _ _
        · exact List.mem_cons_of_mem _ (List.mem_cons_of_mem _ h)
      · intro p hp
        rcases List.mem_cons.mp hp with rfl | hp
        · exact hmax _ (List.mem_cons_self _ _)
        · rcases List.mem_cons.mp hp with rfl | hp
          · exact le_trans (not_lt.mp hgt) (hmax _ (List.mem_cons_self _ _))
          · exact hmax _ (List.mem_cons_of_mem _ hp)

theorem lookupD_of_mem_nodup (d : List (String × ℚ)) (k : String) (v : ℚ)
    (hd : (keysOf d).Nodup) (hmem : (k, v) ∈ d) : lookupD d k = v := by
  induction d with
  | nil => simp at hmem
  | cons p rest ih =>
    obtain ⟨k2, x⟩ := p
    rcases List.mem_cons.mp hmem with h | h
    · injection h with h1 h2
      subst h1
      subst h2
      simp [lookupD]
    · have hk2 : k2 ≠ k := by
        rintro rfl
        have : k2 ∈ keysOf rest := List.mem_map.mpr ⟨(k2, v), h, rfl⟩
        exact (List.nodup_cons.mp (by simpa [keysOf] using hd)).1 this
      have hrest : (keysOf rest).Nodup := (List.nodup_cons.mp
        (by simpa [keysOf] using hd)).2
      simp [lookupD, hk2, ih hrest h]

theorem lookupD_not_mem (d : List (String × ℚ)) (l : String)
    (h : l ∉ keysOf d) : lookupD d l = 0 := by
  induction d with
  | nil => rfl
  | cons p rest ih =>
    obtain ⟨k2, x⟩ := p
    have h2 : k2 ≠ l := fun he => h (by simp [keysOf, he])
    have hr : l ∉ keysOf rest := fun he => h (by simp [keysOf]; right; simpa [keysOf] using he)
    simp [lookupD, h2, ih hr]

theorem lookupD_mem_of_mem_keys (d : List (String × ℚ)) (l : String)
    (h : l ∈ keysOf d) : (l, lookupD d l) ∈ d := by
  induction d with
  | nil => simp [keysOf] at h
  | cons p rest ih =>
    obtain ⟨k2, x⟩ := p
    by_cases h2 : k2 = l
    · subst h2; simp [lookupD]
    · have hh : l = k2 ∨ l ∈ keysOf rest := by simpa [keysOf] using h
      have hl : l ∈ keysOf rest := by
        rcases hh with h' | h'
        · exact absurd h'.symm h2
        · exact h'
      simp [lookupD, h2]
      exact Or.inr (ih hl)

theorem addDur_ne_nil (d : List (String × ℚ)) (k : String) (v : ℚ) :
    addDur d k v ≠ [] := by
  cases d with
  | nil => simp [addDur]
  | cons p rest =>
    obtain ⟨k2, x⟩ := p
    by_cases h : k2 = k <;> simp [addDur, h]

theorem speakerDurations_eq_nil (s e : ℚ) (xs : List Turn) :
    speakerDurations s e xs = [] ↔
      ∀ i ∈ xs, ¬ (max s i.tStart < min e i.tEnd) := by
  rw [speakerDurations]
  have : ∀ (d : List (String × ℚ)),
      (xs.foldl
        (fun d i =>
          let os := max s i.tStart
          let oe := min e i.tEnd
          if os < oe then addDur d i.speaker (oe - os) else d) d) = [] ↔
        d = [] ∧ ∀ i ∈ xs, ¬ (max s i.tStart < min e i.tEnd) := by
    induction xs with
    | nil => intro d; simp
    | cons i xs ih =>
      intro d
      rw [List.foldl_cons, ih]
      by_cases hpos : max s i.tStart < min e i.tEnd
      · simp only [hpos, if_pos]
        constructor
        · rintro ⟨habs, -⟩
          exact absurd habs (addDur_ne_nil d i.speaker _)
        · rintro ⟨rfl, hall⟩
          exact absurd hpos (hall i (List.mem_cons_self _ _))
      · simp only [hpos, if_neg]
        constructor
        · rintro ⟨rfl, hall⟩
          refine ⟨rfl, fun j hj => ?_⟩
          rcases List.mem_cons.mp hj with rfl | hj
          · exact hpos
          · exact hall j hj
        · rintro ⟨rfl, hall⟩
          exact ⟨rfl, fun j hj => hall j (List.mem_cons_of_mem _ hj)⟩
  rw [this []]
  simp

theorem speakerOverlap_nonneg (s e : ℚ) (xs : List Turn) (l : String) :
    0 ≤ speakerOverlap s e xs l := by
  refine List.sum_nonneg ?_
  intro x hx
  obtain ⟨i, -, rfl⟩ := List.mem_map.mp hx
  exact le_max_left 0 _

theorem splitU_no_underscore (ds : List Char) (h : ∀ c ∈ ds, c ≠ '_') :
    splitU ds = [ds] := by
  induction ds with
  | nil => rfl
  | cons c t ih =>
    have hc : c ≠ '_' := h c (List.mem_cons_self _ _)
    have ht : splitU t = [t] := ih fun x hx => h x (List.mem_cons_of_mem _ hx)
    simp [splitU, ht, hc]

theorem splitU_speaker (ds : List Char) (h : ∀ c ∈ ds, c ≠ '_') :
    splitU ('S' :: 'P' :: 'E' :: 'A' :: 'K' :: 'E' :: 'R' :: '_' :: ds) =
      [['S', 'P', 'E', 'A', 'K', 'E', 'R'], ds] := by
  simp [splitU, splitU_no_underscore ds h]

/-- C1 (amended): `_get_dominant_speaker` returns the sentinel
`Unknown Speaker` when no interval overlaps the window positively;
otherwise it returns the rendering of a label whose accumulated overlap
`max(0, min(segmentEnd, interval.end) - max(segmentStart, interval.start))`,
summed over that label's intervals, is maximal.  A winning label of the
canonical form `SPEAKER_<digits>` is rendered `Speaker <n+1>` and a
winning label that does not start with `SPEAKER_` is rendered verbatim
as `Speaker <label>`.  (A label that starts with `SPEAKER_` but whose
second `'_'`-piece is not numeric is *not* rendered verbatim — the code
int-parses the piece; see the counterexample.) -/
theorem dominantSpeaker_spec (s e : ℚ) (xs : List Turn) :
    ((∀ i ∈ xs, ¬ (max s i.tStart < min e i.tEnd)) →
      dominantSpeaker xs s e = some "Unknown Speaker") ∧
    ((∃ i ∈ xs, max s i.tStart < min e i.tEnd) →
      ∃ l, (∀ l', speakerOverlap s e xs l' ≤ speakerOverlap s e xs l) ∧
        dominantSpeaker xs s e = renderLabel l) ∧
    (∀ ds : List Char, ds ≠ [] → (∀ c ∈ ds, c.isDigit) →
      renderLabel (String.mk ('S' :: 'P' :: 'E' :: 'A' :: 'K' :: 'E' :: 'R' :: '_' :: ds)) =
        some ("Speaker " ++ Nat.repr (digitsVal ds + 1))) ∧
    (∀ l : String, hasSpeakerTag l.data = false →
      renderLabel l = some ("Speaker " ++ l)) := by
  refine ⟨?_, ?_, ?_, ?_⟩
  · intro h
    have hnil := (speakerDurations_eq_nil s e xs).mpr h
    unfold dominantSpeaker
    rw [hnil]
  · rintro ⟨i, hi, hlt⟩
    cases hd : speakerDurations s e xs with
    | nil => exact absurd hlt ((speakerDurations_eq_nil s e xs).mp hd i hi)
    | cons p rest =>
      obtain ⟨k, v⟩ := p
      obtain ⟨w, hmem, hmax⟩ := maxKey_spec rest k v
      have hnd : (keysOf ((k, v) :: rest)).Nodup :=
        hd ▸ nodup_keys_speakerDurations s e xs
      have hw : lookupD ((k, v) :: rest) (maxKey k v rest) = w :=
        lookupD_of_mem_nodup _ _ _ hnd hmem
      have hov : speakerOverlap s e xs (maxKey k v rest) = w := by
        rw [← lookupD_speakerDurations s e xs, hd, hw]
      refine ⟨maxKey k v rest, fun l' => ?_, ?_⟩
      · rw [← lookupD_speakerDurations s e xs l', hd, hov]
        by_cases hm : l' ∈ keysOf ((k, v) :: rest)
        · exact hmax _ (lookupD_mem_of_mem_keys _ _ hm)
        · rw [lookupD_not_mem _ _ hm, ← hov]
          exact speakerOverlap_nonneg s e xs _
      · unfold dominantSpeaker
        rw [hd]
  · intro ds hne hdig
    have hnu : ∀ c ∈ ds, c ≠ '_' := by
      intro c hc he
      subst he
      simpa using hdig _ hc
    have hall : ds.all Char.isDigit = true :=
      List.all_eq_true.mpr fun c hc => hdig c hc
    simp [renderLabel, hasSpeakerTag, splitU_speaker ds hnu, pyInt?, hne, hall]
  · intro l h
    simp [renderLabel, h]

/-- C1 counterexample to the claim as stated: the winning label
`SPEAKER_1_2` is not of the canonical form `SPEAKER_<n>`, yet it is not
rendered verbatim as `Speaker SPEAKER_1_2`: the code renders it
`Speaker 2` (it int-parses the piece between the first two
underscores). -/
theorem dominantSpeaker_claim_counterexample :
    dominantSpeaker [⟨0, 10, "SPEAKER_1_2"⟩] 0 10 = some "Speaker 2" ∧
    dominantSpeaker [⟨0, 10, "SPEAKER_1_2"⟩] 0 10 ≠
      some ("Speaker " ++ "SPEAKER_1_2") := by
  constructor
  · decide
  · decide

/-- Witness for C1 (amended): a window with no diarization intervals
yields the sentinel label. -/
theorem dominantSpeaker_spec_witness :
    dominantSpeaker [] 0 10 = some "Unknown Speaker" :=
  (dominantSpeaker_spec 0 10 []).1 (by simp)

/-! ### Attribution path selection (`AudioTranscriber.transcribe_audio`,
transcriber.py:425-448) -/

/-- The two speaker-attribution strategies. -/
inductive AttrPath where
  | diar : AttrPath
  | heur : AttrPath
deriving DecidableEq, Repr

/-- The path selection of `transcribe_audio`: with an annotation of
more than one label use diarization; otherwise use the rule-based
assignment iff `_should_use_rule_based_assignment` triggers, falling
back to diarization formatting when an annotation exists and to
rule-based assignment when none does. -/
def pathFor (d : Option (List Turn)) (segs : List Seg) : AttrPath :=
  match d with
  | some xs =>
    if (labelsOf xs).length > 1 then .diar
    else if shouldUseRuleBased segs then .heur
    else .diar
  | none => .heur

/-- C4 counterexample to the claim as stated: a diarization output with
two labels of 1 s each has zero valid speaker labels (both below the
2.0 s minimum), yet the filter is skipped, the two labels are kept, and
the attribution engine takes the diarization-based path — not the
heuristic path, and with zero (not more than one) valid labels. -/
theorem attributionPath_claim_counterexample :
    validLabels [⟨0, 1, "SPEAKER_00"⟩, ⟨1, 2, "SPEAKER_01"⟩] 2 = [] ∧
    pathFor (some (keptIntervals [⟨0, 1, "SPEAKER_00"⟩, ⟨1, 2, "SPEAKER_01"⟩] 2)) []
      = .diar := by
  have h : validLabels [⟨0, 1, "SPEAKER_00"⟩, ⟨1, 2, "SPEAKER_01"⟩] 2 = [] := by
    simp [validLabels, labelsOf, durTotal, List.dedup]
  refine ⟨h, ?_⟩
  rw [show keptIntervals [⟨0, 1, "SPEAKER_00"⟩, ⟨1, 2, "SPEAKER_01"⟩] 2 =
      [⟨0, 1, "SPEAKER_00"⟩, ⟨1, 2, "SPEAKER_01"⟩] by simp [keptIntervals, h]]
  simp [pathFor, labelsOf, List.dedup]

/-- C4 (amended): the heuristic path is always taken when diarization
is unavailable or failed (no annotation); when an annotation exists the
diarization-based path is taken iff its post-filter label set has more
than one label or the heuristic predicate declines; and when no label
reaches the minimum duration the filter is skipped, so the kept label
set is the unfiltered one (which may have more than one label and then
takes the diarization path despite zero valid labels). -/
theorem attributionPath_spec (segs : List Seg) (xs : List Turn) :
    pathFor none segs = .heur ∧
    (pathFor (some xs) segs = .diar ↔
      ((labelsOf xs).length > 1 ∨ shouldUseRuleBased segs = false)) ∧
    (validLabels xs 2 = [] → keptIntervals xs 2 = xs) := by
  refine ⟨rfl, ?_, fun h => by simp [keptIntervals, h]⟩
  by_cases h1 : (labelsOf xs).length > 1
  · simp [pathFor, h1]
  · by_cases h2 : shouldUseRuleBased segs <;> simp [pathFor, h1, h2]

/-- Witness for C4 (amended): with no annotation the heuristic path is
taken. -/
theorem attributionPath_spec_witness : pathFor none [] = AttrPath.heur :=
  (attributionPath_spec [] []).1

/-- Witness for C2 at the spec's own three-segment scenario. -/
theorem analyzeConversationFlow_spec_witness :
    analyzeConversationFlow
      [⟨0, 2, "Hi there"⟩, ⟨2, 4, "Hello, how are you?"⟩, ⟨6, 8, "Good, thanks"⟩]
      = [1, 1, 2] :=
  (analyzeConversationFlow_spec
    [⟨0, 2, "Hi there"⟩, ⟨2, 4, "Hello, how are you?"⟩, ⟨6, 8, "Good, thanks"⟩]
    (List.cons_ne_nil _ _)).2.2.2.2

/-! ## Job Orchestrator (src/api/job_queue.py)

Each `with self._lock:` block of the source mutates the job table
atomically; the model's operations are exactly those blocks, and the
reachable states are the states between blocks. -/

/-- `JobStatus` of job_queue.py. -/
inductive JobStatus where
  | queued : JobStatus
  | processing : JobStatus
  | completed : JobStatus
  | failed : JobStatus
deriving DecidableEq, Repr

/-- The slice of a Python `datetime` that `cleanup_old_jobs` touches:
`day` counts whole days, `hour` is the hour field, and `rest` is the
remainder (minutes/seconds) within the hour, as a fraction of an hour.
`replace(hour=h)` rewrites the hour field alone. -/
structure PyDateTime where
  day : ℤ
  hour : ℤ
  rest : ℚ
deriving DecidableEq, Repr

/-- Total ordering of datetimes, in hours. -/
def PyDateTime.toHours (t : PyDateTime) : ℚ := 24 * t.day + t.hour + t.rest

/-- `datetime.replace(hour=h)`: raises `ValueError` unless
`0 <= h <= 23`. -/
def replaceHour (t : PyDateTime) (h : ℤ) : Except String PyDateTime :=
  if 0 ≤ h ∧ h ≤ 23 then .ok { t with hour := h }
  else .error "ValueError: hour must be in 0..23"

/-- The payload stored in `job.result` on completion (the fields other
than the stage outputs — filename, timestamps — are fixed by the job
and time, and carry no logic). -/
structure JobResult where
  transcription : String
  summary : String
  judgment : String
deriving DecidableEq, Repr

/-- The `Job` dataclass. -/
structure Job where
  jobId : String
  status : JobStatus
  createdAt : PyDateTime
  audioFilename : String
  result : Option JobResult := none
  error : Option String := none
  progress : Option String := none
deriving DecidableEq, Repr

/-- `self.jobs.get(job_id)` (insertion-ordered dict as a list with
unique keys). -/
def lookupJob (t : List Job) (id : String) : Option Job :=
  t.find? fun j => j.jobId = id

/-- `if job_id in self.jobs: <mutate self.jobs[job_id]>` — a no-op when
the id is absent. -/
def updateJob (t : List Job) (id : String) (f : Job → Job) : List Job :=
  t.map fun j => if j.jobId = id then f j else j

/-- `submit_job`'s lock block: insert a fresh QUEUED job. -/
def submitJob (t : List Job) (id : String) (now : PyDateTime)
    (fname : String) : List Job :=
  t ++ [{ jobId := id, status := .queued, createdAt := now,
          audioFilename := fname,
          progress := some "Job submitted, waiting to start processing..." }]

/-- First lock block of `_process_job`: move to PROCESSING. -/
def setProcessing (t : List Job) (id : String) : List Job :=
  updateJob t id fun j =>
    { j with status := .processing,
             progress := some "Initializing workflow components..." }

/-- The progress-only lock blocks of `_process_job`. -/
def setProgress (t : List Job) (id : String) (msg : String) : List Job :=
  updateJob t id fun j => { j with progress := some msg }

/-- The completion lock block: COMPLETED with the result set. -/
def completeJob (t : List Job) (id : String) (res : JobResult) : List Job :=
  updateJob t id fun j =>
    { j with status := .completed, result := some res,
             progress := some "Processing completed successfully" }

/-- The except-branch lock block: FAILED with the error message set. -/
def failJob (t : List Job) (id : String) (msg : String) : List Job :=
  updateJob t id fun j =>
    { j with status := .failed, error := some msg,
             progress := some ("Processing failed: " ++ msg) }

/-- `cleanup_old_jobs`: the cutoff is computed as
`datetime.now().replace(hour=datetime.now().hour - max_age_hours)`, and
jobs that are terminal and older than the cutoff are removed. -/
def cleanupOldJobs (t : List Job) (now : PyDateTime) (maxAgeHours : ℤ) :
    Except String (List Job) :=
  match replaceHour now (now.hour - maxAgeHours) with
  | .error e => .error e
  | .ok cutoff =>
    .ok (t.filter fun j =>
      !(decide (j.status = .completed ∨ j.status = .failed) &&
        decide (j.createdAt.toHours < cutoff.toHours)))

/-- Outcome of one call to an external stage collaborator: a non-empty
result, `None` (empty output), or a raised exception with its message. -/
inductive StageOut where
  | ok : String → StageOut
  | empty : StageOut
  | exn : String → StageOut
deriving DecidableEq, Repr

/-- Result of a `_process_job` run: the final table and how many times
each stage collaborator was called. -/
structure Run where
  table : List Job
  trCalls : ℕ
  smCalls : ℕ
  jdCalls : ℕ
deriving DecidableEq, Repr

/-- `_process_job`: PROCESSING, then transcribe, summarize and judge in
sequence; a raised exception is recorded verbatim as the error, a
`None` result raises `Exception("<Stage> failed")` which is then
recorded; the first failure is terminal and later stages are not
called. -/
def processJob (t : List Job) (id : String) (tr sm jd : StageOut) : Run :=
  let t1 := setProcessing t id
  let t2 := setProgress t1 id "Transcribing audio..."
  match tr with
  | .exn m => ⟨failJob t2 id m, 1, 0, 0⟩
  | .empty => ⟨failJob t2 id "Transcription failed", 1, 0, 0⟩
  | .ok txt =>
    let t3 := setProgress t2 id "Generating summary..."
    match sm with
    | .exn m => ⟨failJob t3 id m, 1, 1, 0⟩
    | .empty => ⟨failJob t3 id "Summarization failed", 1, 1, 0⟩
    | .ok sum =>
      let t4 := setProgress t3 id "Analyzing situation..."
      match jd with
      | .exn m => ⟨failJob t4 id m, 1, 1, 1⟩
      | .empty => ⟨failJob t4 id "Judgment analysis failed", 1, 1, 1⟩
      | .ok verdict => ⟨completeJob t4 id ⟨txt, sum, verdict⟩, 1, 1, 1⟩

/-- States of the job table reachable through the lock-serialized
operations.  The guards on `start`/`complete`/`fail` reflect that each
job is mutated only by its single worker, which moves it
QUEUED → PROCESSING → terminal exactly once, and that the sweep never
removes a non-terminal job (so a PROCESSING job cannot disappear under
its worker). -/
inductive Reachable : List Job → Prop where
  | init : Reachable []
  | submit (t : List Job) (id : String) (now : PyDateTime) (fname : String) :
      Reachable t → lookupJob t id = none →
      Reachable (submitJob t id now fname)
  | start (t : List Job) (id : String) :
      Reachable t → (lookupJob t id).map Job.status = some .queued →
      Reachable (setProcessing t id)
  | progress (t : List Job) (id : String) (msg : String) :
      Reachable t → Reachable (setProgress t id msg)
  | complete (t : List Job) (id : String) (res : JobResult) :
      Reachable t → (lookupJob t id).map Job.status = some .processing →
      Reachable (completeJob t id res)
  | fail (t : List Job) (id : String) (msg : String) :
      Reachable t → (lookupJob t id).map Job.status = some .processing →
      Reachable (failJob t id msg)
  | sweep (t t2 : List Job) (now : PyDateTime) (maxAge : ℤ) :
      Reachable t → cleanupOldJobs t now maxAge = .ok t2 →
      Reachable t2

/-- The result/error discipline of a single job record. -/
def jobOk (j : Job) : Bool :=
  match j.status with
  | .queued => j.result.isNone && j.error.isNone
  | .processing => j.result.isNone && j.error.isNone
  | .completed => j.result.isSome && j.error.isNone
  | .failed => j.error.isSome && j.result.isNone

/-- The job ids of a table. -/
def keysJ (t : List Job) : List String := t.map Job.jobId

theorem lookupJob_eq_none (t : List Job) (id : String) :
    lookupJob t id = none ↔ ∀ j ∈ t, j.jobId ≠ id := by
  simp [lookupJob, List.find?_eq_none]

theorem mem_updateJob (t : List Job) (id : String) (f : Job → Job) (j' : Job)
    (h : j' ∈ updateJob t id f) :
    j' ∈ t ∨ ∃ j ∈ t, j.jobId = id ∧ j' = f j := by
  obtain ⟨j, hj, hj'⟩ := List.mem_map.mp h
  by_cases hid : j.jobId = id
  · exact Or.inr ⟨j, hj, hid, by rw [← hj', if_pos hid]⟩
  · left
    rwa [← hj', if_neg hid]

theorem keysJ_updateJob (t : List Job) (id : String) (f : Job → Job)
    (hf : ∀ j, (f j).jobId = j.jobId) :
    keysJ (updateJob t id f) = keysJ t := by
  induction t with
  | nil => rfl
  | cons j rest ih =>
    by_cases hid : j.jobId = id <;>
      simp [keysJ, updateJob, hid, hf] at ih ⊢ <;> exact ih

theorem lookupJob_of_mem_nodup (t : List Job) (j : Job)
    (hnd : (keysJ t).Nodup) (hj : j ∈ t) : lookupJob t j.jobId = some j := by
  induction t with
  | nil => simp at hj
  | cons j2 rest ih =>
    rcases List.mem_cons.mp hj with rfl | hj'
    · simp [lookupJob, List.find?_cons]
    · have hne : ¬ j2.jobId = j.jobId := by
        intro he
        have : j2.jobId ∈ keysJ rest :=
          he ▸ List.mem_map.mpr ⟨j, hj', rfl⟩
        exact (List.nodup_cons.mp (by simpa [keysJ] using hnd)).1 this
      have hrest : (keysJ rest).Nodup :=
        (List.nodup_cons.mp (by simpa [keysJ] using hnd)).2
      simpa [lookupJob, List.find?_cons, hne] using ih hrest hj'

theorem reachable_wf (t : List Job) (h : Reachable t) :
    (keysJ t).Nodup ∧ ∀ j ∈ t, jobOk j = true := by
  induction h with
  | init => exact ⟨List.nodup_nil, by simp⟩
  | submit t id now fname hr hfresh ih =>
    constructor
    · have hid : id ∉ keysJ t := by
        rw [lookupJob_eq_none] at hfresh
        intro hmem
        obtain ⟨j, hj, hjid⟩ := List.mem_map.mp hmem
        exact hfresh j hj hjid
      have hnd : (keysJ t ++ [id]).Nodup := by
        rw [List.nodup_append]
        refine ⟨ih.1, List.nodup_singleton id, ?_⟩
        intro a ha hmem
        rw [List.mem_singleton] at hmem
        exact hid (hmem ▸ ha)
      simpa [submitJob, keysJ] using hnd
    · intro j hj
      rcases List.mem_append.mp hj with hj' | hj'
      · exact ih.2 j hj'
      · rw [List.mem_singleton.mp hj']
        rfl
  | start t id hr hguard ih =>
    refine ⟨?_, ?_⟩
    · show (keysJ (updateJob t id _)).Nodup
      rw [keysJ_updateJob]
      exacts [ih.1, fun j => rfl]
    · intro j' hj'
      rcases mem_updateJob _ _ _ _ hj' with hj' | ⟨j, hj, hid, rfl⟩
      · exact ih.2 j' hj'
      · have hl : lookupJob t id = some j :=
          hid ▸ lookupJob_of_mem_nodup t j ih.1 hj
        rw [hl] at hguard
        have hst : j.status = .queued := by
          injection hguard with hguard
        have hok := ih.2 j hj
        rw [jobOk, hst] at hok
        simpa [jobOk] using hok
  | progress t id msg hr ih =>
    refine ⟨?_, ?_⟩
    · show (keysJ (updateJob t id _)).Nodup
      rw [keysJ_updateJob]
      exacts [ih.1, fun j => rfl]
    · intro j' hj'
      rcases mem_updateJob _ _ _ _ hj' with hj' | ⟨j, hj, hid, rfl⟩
      · exact ih.2 j' hj'
      · have heq : jobOk { j with progress := some msg } = jobOk j := by
          cases hst : j.status <;> simp [jobOk, hst]
        rw [heq]
        exact ih.2 j hj
  | complete t id res hr hguard ih =>
    refine ⟨?_, ?_⟩
    · show (keysJ (updateJob t id _)).Nodup
      rw [keysJ_updateJob]
      exacts [ih.1, fun j => rfl]
    · intro j' hj'
      rcases mem_updateJob _ _ _ _ hj' with hj' | ⟨j, hj, hid, rfl⟩
      · exact ih.2 j' hj'
      · have hl : lookupJob t id = some j :=
          hid ▸ lookupJob_of_mem_nodup t j ih.1 hj
        rw [hl] at hguard
        have hst : j.status = .processing := by
          injection hguard with hguard
        have hok := ih.2 j hj
        rw [jobOk, hst] at hok
        simp only [Bool.and_eq_true] at hok
        simp [jobOk, hok.2]
  | fail t id msg hr hguard ih =>
    refine ⟨?_, ?_⟩
    · show (keysJ (updateJob t id _)).Nodup
      rw [keysJ_updateJob]
      exacts [ih.1, fun j => rfl]
    · intro j' hj'
      rcases mem_updateJob _ _ _ _ hj' with hj' | ⟨j, hj, hid, rfl⟩
      · exact ih.2 j' hj'
      · have hl : lookupJob t id = some j :=
          hid ▸ lookupJob_of_mem_nodup t j ih.1 hj
        rw [hl] at hguard
        have hst : j.status = .processing := by
          injection hguard with hguard
        have hok := ih.2 j hj
        rw [jobOk, hst] at hok
        simp only [Bool.and_eq_true] at hok
        simp [jobOk, hok.1]
  | sweep t t2 now maxAge hr hclean ih =>
    obtain ⟨cutoff, hrep, ht2⟩ :
        ∃ cutoff, replaceHour now (now.hour - maxAge) = .ok cutoff ∧
          t2 = t.filter fun j =>
            !(decide (j.status = .completed ∨ j.status = .failed) &&
              decide (j.createdAt.toHours < cutoff.toHours)) := by
      rw [cleanupOldJobs] at hclean
      cases hrep : replaceHour now (now.hour - maxAge) with
      | error e =>
        rw [hrep] at hclean
        exact absurd hclean (by simp)
      | ok cutoff =>
        rw [hrep] at hclean
        injection hclean with hclean
        exact ⟨cutoff, rfl, hclean.symm⟩
    constructor
    · rw [ht2]
      exact ih.1.sublist ((List.filter_sublist t).map Job.jobId)
    · intro j hj
      rw [ht2] at hj
      exact ih.2 j (List.mem_of_mem_filter hj)

/-- C7: in every reachable job-table state, a terminal (COMPLETED or
FAILED) job has exactly one of {result, error} set, and a QUEUED or
PROCESSING job has neither set.  Preservation by submission, worker
steps and the sweep is exactly the induction over `Reachable`. -/
theorem job_result_error_invariant (t : List Job) (h : Reachable t)
    (j : Job) (hj : j ∈ t) :
    ((j.status = .completed ∨ j.status = .failed) →
      ((j.result.isSome && !j.error.isSome) ||
       (!j.result.isSome && j.error.isSome)) = true) ∧
    ((j.status = .queued ∨ j.status = .processing) →
      j.result = none ∧ j.error = none) := by
  have hok := (reachable_wf t h).2 j hj
  constructor
  · rintro (hst | hst) <;> rw [jobOk, hst] at hok <;>
      simp only [Bool.and_eq_true, Option.isNone_iff_eq_none] at hok <;>
      simp [hok.1, hok.2]
  · rintro (hst | hst) <;> rw [jobOk, hst] at hok <;>
      simp only [Bool.and_eq_true, Option.isNone_iff_eq_none] at hok <;>
      exact hok

/-- A fixed submission time for the C7 witness table. -/
def wDT : PyDateTime := ⟨20000, 10, 0⟩

/-- The stage outputs of the C7 witness run. -/
def wRes : JobResult := ⟨"transcript", "summary", "verdict"⟩

/-- A table reached by submit → start → complete. -/
def wTable : List Job :=
  completeJob (setProcessing (submitJob [] "job-1" wDT "a.wav") "job-1")
    "job-1" wRes

/-- The completed job of `wTable`. -/
def wJob : Job :=
  { jobId := "job-1", status := .completed, createdAt := wDT,
    audioFilename := "a.wav", result := some wRes, error := none,
    progress := some "Processing completed successfully" }

/-- Witness for C7 on a concrete reachable table. -/
theorem job_result_error_invariant_witness :
    ((wJob.status = .completed ∨ wJob.status = .failed) →
      ((wJob.result.isSome && !wJob.error.isSome) ||
       (!wJob.result.isSome && wJob.error.isSome)) = true) ∧
    ((wJob.status = .queued ∨ wJob.status = .processing) →
      wJob.result = none ∧ wJob.error = none) := by
  have hreach : Reachable wTable :=
    Reachable.complete _ "job-1" wRes
      (Reachable.start _ "job-1"
        (Reachable.submit [] "job-1" wDT "a.wav" Reachable.init (by decide))
        (by decide))
      (by decide)
  exact job_result_error_invariant wTable hreach wJob (by decide)

theorem lookupJob_updateJob (t : List Job) (id : String) (f : Job → Job)
    (hf : ∀ j, (f j).jobId = j.jobId) :
    lookupJob (updateJob t id f) id = (lookupJob t id).map f := by
  induction t with
  | nil => rfl
  | cons j rest ih =>
    by_cases hid : j.jobId = id
    · simp [updateJob, lookupJob, List.find?_cons, hid, hf]
    · simp only [updateJob, List.map_cons, if_neg hid] at *
      simp only [lookupJob, List.find?_cons] at *
      simp [hid, ih]

/-- The status of a job id in a table. -/
def statusOf (t : List Job) (id : String) : Option JobStatus :=
  (lookupJob t id).map Job.status

/-- The error of a job id in a table. -/
def errorOf (t : List Job) (id : String) : Option String :=
  (lookupJob t id).bind Job.error

theorem statusOf_failJob (t : List Job) (id : String) (m : String)
    (j : Job) (hj : lookupJob t id = some j) :
    statusOf (failJob t id m) id = some .failed ∧
    errorOf (failJob t id m) id = some m := by
  rw [statusOf, errorOf, failJob, lookupJob_updateJob, hj]
  · exact ⟨rfl, rfl⟩
  · intro j'
    rfl

theorem lookupJob_setProcessing (t : List Job) (id : String)
    (j : Job) (hj : lookupJob t id = some j) :
    ∃ j', lookupJob (setProcessing t id) id = some j' := by
  rw [setProcessing, lookupJob_updateJob, hj]
  · exact ⟨_, rfl⟩
  · intro j'
    rfl

theorem lookupJob_setProgress (t : List Job) (id msg : String)
    (j : Job) (hj : lookupJob t id = some j) :
    ∃ j', lookupJob (setProgress t id msg) id = some j' := by
  rw [setProgress, lookupJob_updateJob, hj]
  · exact ⟨_, rfl⟩
  · intro j'
    rfl

/-- C8: whenever a stage raises or returns empty output, `_process_job`
marks the job FAILED with the triggering message recorded verbatim as
its error (`"<Stage> failed"` when the stage returned empty output),
no stage is called more than once, and the stages after the failing one
are not called at all. -/
theorem processJob_failFast (t : List Job) (id : String) (j : Job)
    (hj : lookupJob t id = some j) (tr sm jd : StageOut) :
    (∀ m, tr = .exn m →
      statusOf (processJob t id tr sm jd).table id = some .failed ∧
      errorOf (processJob t id tr sm jd).table id = some m ∧
      (processJob t id tr sm jd).smCalls = 0 ∧
      (processJob t id tr sm jd).jdCalls = 0) ∧
    (tr = .empty →
      statusOf (processJob t id tr sm jd).table id = some .failed ∧
      errorOf (processJob t id tr sm jd).table id =
        some "Transcription failed" ∧
      (processJob t id tr sm jd).smCalls = 0 ∧
      (processJob t id tr sm jd).jdCalls = 0) ∧
    (∀ x m, tr = .ok x → sm = .exn m →
      statusOf (processJob t id tr sm jd).table id = some .failed ∧
      errorOf (processJob t id tr sm jd).table id = some m ∧
      (processJob t id tr sm jd).jdCalls = 0) ∧
    (∀ x, tr = .ok x → sm = .empty →
      statusOf (processJob t id tr sm jd).table id = some .failed ∧
      errorOf (processJob t id tr sm jd).table id =
        some "Summarization failed" ∧
      (processJob t id tr sm jd).jdCalls = 0) ∧
    (∀ x y m, tr = .ok x → sm = .ok y → jd = .exn m →
      statusOf (processJob t id tr sm jd).table id = some .failed ∧
      errorOf (processJob t id tr sm jd).table id = some m) ∧
    (∀ x y, tr = .ok x → sm = .ok y → jd = .empty →
      statusOf (processJob t id tr sm jd).table id = some .failed ∧
      errorOf (processJob t id tr sm jd).table id =
        some "Judgment analysis failed") ∧
    ((processJob t id tr sm jd).trCalls ≤ 1 ∧
     (processJob t id tr sm jd).smCalls ≤ 1 ∧
     (processJob t id tr sm jd).jdCalls ≤ 1) := by
  obtain ⟨j1, hj1⟩ := lookupJob_setProcessing t id j hj
  obtain ⟨j2, hj2⟩ :=
    lookupJob_setProgress (setProcessing t id) id "Transcribing audio..." j1 hj1
  obtain ⟨j3, hj3⟩ := lookupJob_setProgress _ id "Generating summary..." j2 hj2
  obtain ⟨j4, hj4⟩ := lookupJob_setProgress _ id "Analyzing situation..." j3 hj3
  refine ⟨?_, ?_, ?_, ?_, ?_, ?_, ?_⟩
  · rintro m rfl
    obtain ⟨h1, h2⟩ := statusOf_failJob _ id m j2 hj2
    exact ⟨h1, h2, rfl, rfl⟩
  · rintro rfl
    obtain ⟨h1, h2⟩ := statusOf_failJob _ id "Transcription failed" j2 hj2
    exact ⟨h1, h2, rfl, rfl⟩
  · rintro x m rfl rfl
    obtain ⟨h1, h2⟩ := statusOf_failJob _ id m j3 hj3
    exact ⟨h1, h2, rfl⟩
  · rintro x rfl rfl
    obtain ⟨h1, h2⟩ := statusOf_failJob _ id "Summarization failed" j3 hj3
    exact ⟨h1, h2, rfl⟩
  · rintro x y m rfl rfl rfl
    exact statusOf_failJob _ id m j4 hj4
  · rintro x y rfl rfl rfl
    exact statusOf_failJob _ id "Judgment analysis failed" j4 hj4
  · cases tr <;> cases sm <;> cases jd <;>
      exact ⟨le_refl _, by simp [processJob], by simp [processJob]⟩

/-- Witness for C8: a failing transcription stage on a freshly
submitted job. -/
theorem processJob_failFast_witness :
    statusOf (processJob (submitJob [] "job-2" wDT "b.wav") "job-2"
      (.exn "boom") (.ok "s") (.ok "v")).table "job-2" = some .failed ∧
    errorOf (processJob (submitJob [] "job-2" wDT "b.wav") "job-2"
      (.exn "boom") (.ok "s") (.ok "v")).table "job-2" = some "boom" ∧
    (processJob (submitJob [] "job-2" wDT "b.wav") "job-2"
      (.exn "boom") (.ok "s") (.ok "v")).smCalls = 0 ∧
    (processJob (submitJob [] "job-2" wDT "b.wav") "job-2"
      (.exn "boom") (.ok "s") (.ok "v")).jdCalls = 0 :=
  (processJob_failFast (submitJob [] "job-2" wDT "b.wav") "job-2"
    { jobId := "job-2", status := .queued, createdAt := wDT,
      audioFilename := "b.wav",
      progress := some "Job submitted, waiting to start processing..." }
    (by decide) (.exn "boom") (.ok "s") (.ok "v")).1 "boom" rfl

/-- A terminal job two days old, for the sweep evaluation. -/
def oldJob : Job :=
  { jobId := "old", status := .completed, createdAt := ⟨19998, 10, 0⟩,
    audioFilename := "a.wav", result := some ⟨"t", "s", "v"⟩ }

/-- C6 (code bug): the sweep computes its cutoff as
`now.replace(hour=now.hour - max_age_hours)`.  With the default
`max_age_hours = 24` (the value the hourly background task uses) the
hour field is always negative, so `replace` raises `ValueError` and no
job is ever removed — here evaluated at 10:00 with a COMPLETED job 48
hours old, which the claim says must be removed.  The claim's
`maxAge = 0` scenario does work: the cutoff degenerates to `now` and
the completed job is removed. -/
theorem cleanupOldJobs_code_bug :
    cleanupOldJobs [oldJob] ⟨20000, 10, 0⟩ 24
      = .error "ValueError: hour must be in 0..23" ∧
    (oldJob.status = .completed ∧
      oldJob.createdAt.toHours < (⟨20000, 10, 0⟩ : PyDateTime).toHours - 24) ∧
    cleanupOldJobs [oldJob] ⟨20000, 10, 0⟩ 0 = .ok [] := by
  refine ⟨rfl, ⟨rfl, ?_⟩, ?_⟩
  · show (⟨19998, 10, 0⟩ : PyDateTime).toHours <
      (⟨20000, 10, 0⟩ : PyDateTime).toHours - 24
    norm_num [PyDateTime.toHours]
  · have hc : ({ day := 19998, hour := 10, rest := 0 } : PyDateTime).toHours <
        ({ day := 20000, hour := 10, rest := 0 } : PyDateTime).toHours := by
      norm_num [PyDateTime.toHours]
    simp [cleanupOldJobs, replaceHour, oldJob, hc]

end CW
